import Mathlib

/-!
A shallow embedding of the span-matching and numeric-parsing engine of
libtextclassifier (annotator/lookup/lookup-engine.cc, annotator/lookup/normalizer.cc,
annotator/number/number.cc), together with proofs of the specified properties.

Codepoint indices and byte offsets are modelled as `Nat`; the C++ `int64`
accumulator of the number parser is modelled as `Int` with the source's explicit
overflow guard; C++ `double` values are modelled exactly as `ℚ` (the claims
proved here do not depend on floating-point rounding).

External collaborators that are not part of the repository sources
(FeatureProcessor boundary stripping, the UTF-8 helpers of utils/strings/utf8.h,
UnicodeText, the generated normalization-table data, the SortedStringsTable
trie and the Unicode `ToLower`) are either taken as explicit function
parameters or modelled from the spec; each such definition is marked.
-/

namespace LibTextClassifier

/-- Half-open pair `[first, second)` of codepoint offsets (annotator/types.h). -/
structure CodepointSpan where
  first : Nat
  second : Nat
deriving DecidableEq, Repr

/-- Classification result (annotator/types.h): the fields read or written by the
code under verification. Scores are modelled exactly as rationals. -/
structure ClassificationResult where
  collection : String
  score : ℚ
  priority_score : ℚ
  numeric_value : Int
  numeric_double_value : ℚ
deriving DecidableEq, Repr

instance : Inhabited ClassificationResult :=
  ⟨⟨"", 0, 0, 0, 0⟩⟩

/-- Annotated span (annotator/types.h). -/
structure AnnotatedSpan where
  span : CodepointSpan
  classification : List ClassificationResult
deriving DecidableEq, Repr

instance : Inhabited AnnotatedSpan := ⟨⟨⟨0, 0⟩, []⟩⟩

/-- Token (annotator/types.h): `ChunkInternal` only reads the codepoint
offsets `start` and `end` of each token; the `end` field is named `end_`
because `end` is a Lean keyword. -/
structure Token where
  start : Nat
  end_ : Nat
deriving DecidableEq, Repr

instance : Inhabited Token := ⟨⟨0, 0⟩⟩

namespace LookupEngine

/-!  LookupEngine::ChunkInternal (annotator/lookup/lookup-engine.cc:77-142).

The virtual method `FindMatches` (which strips boundary codepoints via the
external FeatureProcessor, normalizes, consults the n-gram index, and writes
the stripped span back through its `span` out-parameter) is taken as a
function parameter `fm : CodepointSpan → CodepointSpan × List ClassificationResult`
returning the stripped span and the matches.  -/

/-- The inner forward loop over candidate end token indices
(lookup-engine.cc:104-116): for each `end` the running codepoint index
`end_codepoint_idx` is advanced with `while (end_codepoint_idx < tokens[end-1].end)`,
i.e. it becomes the max of its old value and `tokens[end-1].end`. -/
def endCandidatesAux (tokens : List Token) : Nat → List Nat → List (Nat × Nat)
  | _, [] => []
  | ec, e :: rest =>
    let ec2 := max ec ((tokens.getD (e - 1) default).end_)
    (e, ec2) :: endCandidatesAux tokens ec2 rest

/-- The backward loop over the stored candidates (lookup-engine.cc:118-138),
given the candidate list already reversed (longest window first): the first
candidate whose `FindMatches` result is non-empty is selected; `fm` returns
the stripped span written through the `span` pointer and the matches. -/
def findLongestAux (fm : CodepointSpan → CodepointSpan × List ClassificationResult)
    (scIdx : Nat) : List (Nat × Nat) → Option (Nat × CodepointSpan × List ClassificationResult)
  | [] => none
  | (e, ec) :: rest =>
    let r := fm ⟨scIdx, ec⟩
    if r.2 ≠ [] then some (e, r.1, r.2) else findLongestAux fm scIdx rest

/-- Mutable state of the outer loop of `ChunkInternal`. -/
structure ChunkState where
  minimum_start : Nat
  start_codepoint_idx : Nat
  result : List AnnotatedSpan
deriving Repr

/-- One iteration of the outer loop of `ChunkInternal` (lookup-engine.cc:86-139)
for the start token index `start`: skip if `start < minimum_start`; advance
`start_codepoint_idx` to `tokens[start].start` (a max-update, since the C++
`while` only moves it forward); build the end candidates; scan them backwards;
on a match append one AnnotatedSpan carrying the stripped span and set
`minimum_start` to the winning end token index. -/
def chunkStep (tokens : List Token) (max_num_tokens : Nat)
    (fm : CodepointSpan → CodepointSpan × List ClassificationResult)
    (st : ChunkState) (start : Nat) : ChunkState :=
  if start < st.minimum_start then st
  else
    let scIdx := max st.start_codepoint_idx ((tokens.getD start default).start)
    let cnt := min (start + max_num_tokens) tokens.length - start
    let cands := endCandidatesAux tokens scIdx (List.range' (start + 1) cnt)
    match findLongestAux fm scIdx cands.reverse with
    | some (e, sp, cls) =>
      { minimum_start := e, start_codepoint_idx := scIdx,
        result := st.result ++ [⟨sp, cls⟩] }
    | none => { st with start_codepoint_idx := scIdx }

/-- LookupEngine::ChunkInternal (lookup-engine.cc:77-142): iterate `chunkStep`
over all start token indices in increasing order.  `fm` abstracts the virtual
`FindMatches`, already applied to `max_num_matches`. -/
def ChunkInternal (tokens : List Token) (max_num_tokens max_num_matches : Nat)
    (fm : Nat → CodepointSpan → CodepointSpan × List ClassificationResult) :
    List AnnotatedSpan :=
  ((List.range tokens.length).foldl
    (chunkStep tokens max_num_tokens (fm max_num_matches)) ⟨0, 0, []⟩).result

/-- The candidate window at start token `s` and end token `e` as the spec
describes it: the codepoint span `[tokens[s].start, tokens[e-1].end)`. -/
def windowSpan (tokens : List Token) (s e : Nat) : CodepointSpan :=
  ⟨(tokens.getD s default).start, (tokens.getD (e - 1) default).end_⟩

/-- The first end token index of a candidate list whose window yields a
non-empty `FindMatches` result, together with the stripped span and the
matches. -/
def firstMatchDesc
    (fm : CodepointSpan → CodepointSpan × List ClassificationResult)
    (tokens : List Token) (s : Nat) :
    List Nat → Option (Nat × CodepointSpan × List ClassificationResult)
  | [] => none
  | e :: es =>
    let r := fm (windowSpan tokens s e)
    if r.2 ≠ [] then some (e, r.1, r.2) else firstMatchDesc fm tokens s es

/-- The spec's description of the per-start search: try the end token
indices from `min (s + max_num_tokens) tokens.length` down to `s + 1` — the
longest window down to the shortest — and take the first one whose
`FindMatches` result is non-empty. -/
def LongestMatch
    (fm : CodepointSpan → CodepointSpan × List ClassificationResult)
    (tokens : List Token) (max_num_tokens s : Nat) :
    Option (Nat × CodepointSpan × List ClassificationResult) :=
  firstMatchDesc fm tokens s
    (List.range' (s + 1) (min (s + max_num_tokens) tokens.length - s)).reverse

/-!  LookupEngine::AddEntry (annotator/lookup/lookup-engine.cc:26-53).

The helper `StripBoundaryCodepointsAndNormalize` (which consults the external
FeatureProcessor and the Normalizer) is taken as a function parameter
`stripNorm : String → String`, and UTF-8 validity of an n-gram
(`UnicodeText::is_valid`, not under src/) as a parameter `is_valid`. -/

/-- The engine's dictionary state: the append-only entry store `entries_` and
the n-gram index `ngram_to_entry_index_`, modelled as a total map defaulting
to the empty posting list (as `operator[]` of the C++ unordered_map
default-constructs missing values). -/
structure LookupState where
  entries_ : List ClassificationResult
  ngram_to_entry_index_ : String → List Nat

/-- Pointwise update of the n-gram index. -/
def updateIndex (m : String → List Nat) (key : String) (v : List Nat) :
    String → List Nat :=
  fun s => if s = key then v else m s

/-- The body of the n-gram loop of `AddEntry` (lookup-engine.cc:30-52): skip
empty n-grams, skip n-grams that fail UTF-8 decoding, strip and normalize,
and if the result is non-empty append `entry_index` to its posting list
unless the list's last element already equals `entry_index`. -/
def processNgram (stripNorm : String → String) (is_valid : String → Bool)
    (entry_index : Nat) (m : String → List Nat) (ngram : String) :
    String → List Nat :=
  if ngram = "" then m
  else if ¬ is_valid ngram then m
  else
    let stripped_ngram := stripNorm ngram
    if stripped_ngram = "" then m
    else
      let entry_indices := m stripped_ngram
      if entry_indices = [] ∨ entry_indices.getLast? ≠ some entry_index then
        updateIndex m stripped_ngram (entry_indices ++ [entry_index])
      else m

/-- LookupEngine::AddEntry (lookup-engine.cc:26-53): the entry is pushed onto
the entry store first (unconditionally), yielding `entry_index`, and then
every n-gram of the list is processed. -/
def AddEntry (stripNorm : String → String) (is_valid : String → Bool)
    (st : LookupState) (ngrams : List String) (entry : ClassificationResult) :
    LookupState :=
  let entry_index := st.entries_.length
  { entries_ := st.entries_ ++ [entry],
    ngram_to_entry_index_ :=
      ngrams.foldl (processNgram stripNorm is_valid entry_index)
        st.ngram_to_entry_index_ }

end LookupEngine

namespace Normalizer

/-!  Normalizer::Normalize (annotator/lookup/normalizer.cc:47-99).

Bytes are modelled as `Nat` (values < 256 in any real input).  The generated
normalization-table data (only declared in
annotator/lookup/normalization-table.h; the 1468 entries themselves are not
under src/) is a parameter `table : List Nat → Option (List Nat)` keyed by the
bytes of one character.  The case-folding step (which decodes
`normalized_chars` with the external UnicodeText and lowercases each codepoint
with the external UniLib) is a parameter `foldFn : List Nat → List Nat`. -/

/-- IsTrailByte. Modelled from the spec: utils/strings/utf8.h is not under
src/; a UTF-8 trail byte is one with high-bit pattern `10xxxxxx`. -/
def IsTrailByte (b : Nat) : Bool :=
  128 ≤ b ∧ b < 192

/-- GetNumBytesForUTF8Char. Modelled from the spec: utils/strings/utf8.h is
not under src/; the spec says the encoded byte length is computed from the
leading byte's high-bit pattern (`0xxxxxxx` → 1, `110xxxxx` → 2,
`1110xxxx` → 3, `11110xxx` → 4). -/
def GetNumBytesForUTF8Char (b : Nat) : Nat :=
  if b < 128 then 1
  else if b < 224 then 2
  else if b < 240 then 3
  else 4

/-- Utf8CharLength (normalizer.cc:35-41): a trail byte in leading position is
invalid input and gets the fallback length 1. -/
def Utf8CharLength (b : Nat) : Nat :=
  if IsTrailByte b then 1 else GetNumBytesForUTF8Char b

/-- The main loop of `Normalize` (normalizer.cc:58-92), returning the output
bytes and the per-output-byte index map (without the final entry).  If the
character's declared length exceeds the remaining bytes, the loop breaks and
the rest of the input is dropped. -/
def NormalizeLoop (table : List Nat → Option (List Nat))
    (foldFn : List Nat → List Nat) (fold_case : Bool) :
    List Nat → Nat → List Nat × List Nat
  | [], _ => ([], [])
  | b :: rest, codepoint_start_index =>
    let utf8_char_length := Utf8CharLength b
    if utf8_char_length ≤ (b :: rest).length then
      let utf8_char := (b :: rest).take utf8_char_length
      let looked_up := ((table utf8_char).getD utf8_char)
      let normalized_chars := if fold_case then foldFn looked_up else looked_up
      let tail_result := NormalizeLoop table foldFn fold_case
        ((b :: rest).drop utf8_char_length)
        (codepoint_start_index + utf8_char_length)
      (normalized_chars ++ tail_result.1,
        List.replicate normalized_chars.length codepoint_start_index
          ++ tail_result.2)
    else ([], [])
termination_by l _ => l.length
decreasing_by
  simp only [List.length_drop, List.length_cons]
  have h1 : 1 ≤ Utf8CharLength b := by
    unfold Utf8CharLength GetNumBytesForUTF8Char
    repeat' split
    all_goals omega
  omega

/-- Normalizer::Normalize (normalizer.cc:47-99) with the index map requested:
returns the output bytes and the index map, whose final entry is the input's
total byte length (normalizer.cc:94-97). -/
def Normalize (table : List Nat → Option (List Nat))
    (foldFn : List Nat → List Nat) (fold_case : Bool) (input : List Nat) :
    List Nat × List Nat :=
  let r := NormalizeLoop table foldFn fold_case input 0
  (r.1, r.2 ++ [input.length])

/-- A character unit exactly as the scanner of `Normalize` delimits them: a
non-empty byte chunk whose length declared by its leading byte equals its
actual length. -/
def IsCharUnit (u : List Nat) : Prop :=
  u ≠ [] ∧ Utf8CharLength (u.headD 0) = u.length

/-- Byte strings fixed by one normalization pass: concatenations of character
units that the normalization table has no entry for and that case folding
leaves unchanged.  The closure hypothesis of the idempotence theorem states
that every character the normalizer emits is of this shape. -/
inductive NormalOutput (table : List Nat → Option (List Nat))
    (foldFn : List Nat → List Nat) : List Nat → Prop
  | nil : NormalOutput table foldFn []
  | cons (u rest : List Nat) : IsCharUnit u → table u = none → foldFn u = u →
      NormalOutput table foldFn rest → NormalOutput table foldFn (u ++ rest)

end Normalizer

namespace NumberAnnotator

/-!  NumberAnnotator (annotator/number/number.cc).  Token text is a list of
codepoints (`Nat`); the relevant ASCII codepoints are `'+'` = 43, `','` = 44,
`'-'` = 45, `'.'` = 46 and `'0'..'9'` = 48..57. -/

/-- The configured codepoint sets of the NumberAnnotator (number.h:104-107),
built from the options at construction. -/
structure Options where
  allowed_prefix_codepoints_ : List Nat
  allowed_suffix_codepoints_ : List Nat
  ignored_prefix_span_boundary_codepoints_ : List Nat
  ignored_suffix_span_boundary_codepoints_ : List Nat
deriving Repr

/-- INT64_MAX, the bound of the C++ signed 64-bit accumulator. -/
def INT64_MAX : Int := 9223372036854775807

/-- ParseNextNumericCodepoint (number.cc:127-135): guarded accumulation of one
ASCII digit into the signed 64-bit accumulator; `none` models `return false`.
The guard compares against `INT64_MAX / 10 - 10` (C++ integer division). -/
def ParseNextNumericCodepoint (codepoint : Nat) (current_value : Int) :
    Option Int :=
  if current_value > INT64_MAX / 10 - 10 then none
  else some (current_value * 10 + (codepoint : Int) - 48)

/-- The sign loop of ConsumeAndParseNumber (number.cc:145-154): consume a
leading run of `'-'`/`'+'`, the last sign character winning.  Returns the
remaining codepoints and the sign. -/
def consumeSign : List Nat → Int → List Nat × Int
  | [], sign => ([], sign)
  | c :: rest, sign =>
    if c = 45 then consumeSign rest (-1)
    else if c = 43 then consumeSign rest 1
    else (c :: rest, sign)

/-- Parser states of ConsumeAndParseNumber (number.cc:156-160). -/
inductive PState
  | PARSING_WHOLE_PART
  | PARSING_FLOATING_PART
  | PARSING_DONE
deriving DecidableEq, Repr

/-- The main loop of ConsumeAndParseNumber (number.cc:165-199).  The result is
`none` for the `return it_begin` on whole-part overflow, and otherwise
`(number_digits, int_result, decimal_result, decimal_result_denominator,
has_decimal)`, where `number_digits` counts every consumed codepoint of the
loop (the C++ `++number_digits` runs for digits and for the decimal
separators `'.'`/`','` alike, since they do not set the state to DONE). -/
def parseLoop : List Nat → PState → Int → Int → Int → Bool → Nat →
    Option (Nat × Int × Int × Int × Bool)
  | [], _, int_result, dec, den, has_decimal, number_digits =>
    some (number_digits, int_result, dec, den, has_decimal)
  | c :: rest, state, int_result, dec, den, has_decimal, number_digits =>
    match state with
    | .PARSING_WHOLE_PART =>
      if 48 ≤ c ∧ c ≤ 57 then
        match ParseNextNumericCodepoint c int_result with
        | none => none
        | some v =>
          parseLoop rest .PARSING_WHOLE_PART v dec den has_decimal
            (number_digits + 1)
      else if c = 46 ∨ c = 44 then
        parseLoop rest .PARSING_FLOATING_PART int_result dec den has_decimal
          (number_digits + 1)
      else some (number_digits, int_result, dec, den, has_decimal)
    | .PARSING_FLOATING_PART =>
      if 48 ≤ c ∧ c ≤ 57 then
        match ParseNextNumericCodepoint c dec with
        | none => some (number_digits, int_result, dec, den, true)
        | some v =>
          parseLoop rest .PARSING_FLOATING_PART int_result v (den * 10) true
            (number_digits + 1)
      else some (number_digits, int_result, dec, den, has_decimal)
    | .PARSING_DONE => some (number_digits, int_result, dec, den, has_decimal)

/-- ConsumeAndParseNumber (number.cc:137-210): returns `none` when the
iterator comes back at `it_begin` (whole-part overflow, or zero codepoints
consumed by the loop), and otherwise the total number of consumed codepoints
together with `int_result`, the exact `double_result` and `has_decimal`. -/
def ConsumeAndParseNumber (l : List Nat) :
    Option (Nat × Int × ℚ × Bool) :=
  let signed := consumeSign l 1
  let sign := signed.2
  let sign_count := l.length - signed.1.length
  match parseLoop signed.1 .PARSING_WHOLE_PART 0 0 1 false 0 with
  | none => none
  | some (number_digits, int_result, dec, den, has_decimal) =>
    if number_digits = 0 then none
    else
      let signed_int := sign * int_result
      some (sign_count + number_digits, signed_int,
        (signed_int : ℚ) + (dec : ℚ) / (den : ℚ), has_decimal)

/-- Count of leading codepoints belonging to a configured set. -/
def countLeadingIn (s : List Nat) : List Nat → Nat
  | [] => 0
  | c :: rest => if c ∈ s then countLeadingIn s rest + 1 else 0

/-- FeatureProcessor::StripBoundaryCodepoints. Modelled from the spec: the
FeatureProcessor is not under src/; the spec describes it as monotonically
shrinking the span by removing codepoints of the leading set from the front
and codepoints of the trailing set from the back.  Returns the stripped span
over `[0, text.length)`. -/
def StripBoundaryCodepoints (pre suf : List Nat) (text : List Nat) :
    Nat × Nat :=
  let first := countLeadingIn pre text
  let remaining := text.drop first
  let second := text.length - countLeadingIn suf remaining.reverse
  (first, second)

/-- The suffix loop of ParseNumber (number.cc:253-274): count allowed suffix
codepoints; tolerate ignored-boundary codepoints; any other codepoint fails
the whole token (`valid_suffix = false`, modelled as `none`).  Returns
`num_suffix_codepoints`. -/
def suffixLoop (opts : Options) : List Nat → Nat → Option Nat
  | [], num_suffix_codepoints => some num_suffix_codepoints
  | c :: rest, num_suffix_codepoints =>
    if c ∈ opts.allowed_suffix_codepoints_ then
      suffixLoop opts rest (num_suffix_codepoints + 1)
    else if c ∉ opts.ignored_suffix_span_boundary_codepoints_ then none
    else suffixLoop opts rest num_suffix_codepoints

/-- The successful output of ParseNumber (its out-parameters). -/
structure ParseResult where
  int_result : Int
  double_result : ℚ
  has_decimal : Bool
  num_prefix_codepoints : Nat
  num_suffix_codepoints : Nat
deriving DecidableEq, Repr

/-- The stripped working window of `ParseNumber` (number.cc:220-232): the
codepoints between the boundary-stripped span's ends. -/
def strippedWorking (opts : Options) (text : List Nat) : List Nat :=
  let stripped_span := StripBoundaryCodepoints
    opts.ignored_prefix_span_boundary_codepoints_
    opts.ignored_suffix_span_boundary_codepoints_ text
  (text.drop stripped_span.1).take (stripped_span.2 - stripped_span.1)

/-- The stripped working window of `ParseNumber` after additionally consuming
the allowed prefix codepoints: the list `ConsumeAndParseNumber` is invoked on
(number.cc:234-248). -/
def afterAllowedPre (opts : Options) (text : List Nat) : List Nat :=
  let working := strippedWorking opts text
  working.drop (countLeadingIn opts.allowed_prefix_codepoints_ working)

/-- NumberAnnotator::ParseNumber (number.cc:213-278): strip boundary
codepoints from both ends, consume allowed prefix codepoints, run
ConsumeAndParseNumber, fail if the iterator did not move, then validate and
count the suffix codepoints. -/
def ParseNumber (opts : Options) (text : List Nat) : Option ParseResult :=
  let stripped_span := StripBoundaryCodepoints
    opts.ignored_prefix_span_boundary_codepoints_
    opts.ignored_suffix_span_boundary_codepoints_ text
  let num_stripped_end := text.length - stripped_span.2
  let working := strippedWorking opts text
  let prefix_count := countLeadingIn opts.allowed_prefix_codepoints_ working
  let num_prefix_codepoints := stripped_span.1 + prefix_count
  let after_pre := afterAllowedPre opts text
  match ConsumeAndParseNumber after_pre with
  | none => none
  | some (consumed, int_result, double_result, has_decimal) =>
    match suffixLoop opts (after_pre.drop consumed) 0 with
    | none => none
    | some num_suffix_codepoints =>
      some ⟨int_result, double_result, has_decimal, num_prefix_codepoints,
        num_suffix_codepoints + num_stripped_end⟩

end NumberAnnotator

/-- Collections::Number. Modelled from the spec: annotator/collections.h is
not under src/; the spec names the collection tag "Number". -/
def CollectionNumber : String := "Number"

/-- Collections::Percentage. Modelled from the spec: annotator/collections.h
is not under src/; the spec names the collection tag "Percentage". -/
def CollectionPercentage : String := "Percentage"

/-- UTF-8 encoding of one codepoint. Modelled from the spec: UnicodeText is
not under src/; standard UTF-8 (1 byte below 0x80, 2 below 0x800, 3 below
0x10000, 4 otherwise). -/
def utf8Encode (c : Nat) : List Nat :=
  if c < 128 then [c]
  else if c < 2048 then [192 + c / 64, 128 + c % 64]
  else if c < 65536 then [224 + c / 4096, 128 + c / 64 % 64, 128 + c % 64]
  else [240 + c / 262144, 128 + c / 4096 % 64, 128 + c / 64 % 64, 128 + c % 64]

/-- UTF-8 encoding of a codepoint sequence. -/
def utf8EncodeList (cs : List Nat) : List Nat :=
  cs.flatMap utf8Encode

/-- UnicodeText::size_codepoints over a byte buffer. Modelled from the spec:
UnicodeText is not under src/; the codepoint count of a UTF-8 buffer is the
number of non-trail bytes. -/
def size_codepoints (bytes : List Nat) : Nat :=
  (bytes.filter (fun b => ¬ Normalizer.IsTrailByte b)).length

namespace NumberAnnotator

/-- NumberAnnotator::GetPercentSuffixLength (number.cc:280-300): `-1` when the
index is at or past the end of the context; otherwise run the percentage
suffix trie's `LongestPrefixMatch` (the SortedStringsTable is not under src/,
so the trie is a parameter `trie : List Nat → Int` returning a match length in
bytes or `-1`) on the byte suffix starting at the given codepoint index, and
convert a found match length from bytes to codepoints. -/
def GetPercentSuffixLength (trie : List Nat → Int) (context : List Nat)
    (index_codepoints : Nat) : Int :=
  if index_codepoints ≥ context.length then -1
  else
    let suffix_context := utf8EncodeList (context.drop index_codepoints)
    let match_length := trie suffix_context
    if match_length = -1 then match_length
    else (size_codepoints (suffix_context.take match_length.toNat) : Int)

/-- NumberAnnotator::FindPercentages (number.cc:302-318): for every annotated
span whose first classification has the Number collection, a positive percent
suffix match at the span's end upgrades the classification to Percentage,
overrides the priority score with `percentage_priority_score`, and extends the
span's end by the (codepoint-converted) match length. -/
def FindPercentages (trie : List Nat → Int) (percentage_priority_score : ℚ)
    (context : List Nat) (result : List AnnotatedSpan) : List AnnotatedSpan :=
  result.map fun res =>
    match res.classification with
    | [] => res
    | c :: cs =>
      if c.collection ≠ CollectionNumber then res
      else
        let match_length := GetPercentSuffixLength trie context res.span.second
        if match_length > 0 then
          { span := ⟨res.span.first, res.span.second + match_length.toNat⟩,
            classification :=
              { c with collection := CollectionPercentage,
                       priority_score := percentage_priority_score } :: cs }
        else res

end NumberAnnotator

/-! ## Verified properties -/

namespace Normalizer

/-- Helper for C5: both components of `NormalizeLoop` have the same length
(one index-map entry is pushed per output byte). -/
lemma NormalizeLoop_length (table : List Nat → Option (List Nat))
    (foldFn : List Nat → List Nat) (fold_case : Bool) (l : List Nat) (k : Nat) :
    (NormalizeLoop table foldFn fold_case l k).2.length
      = (NormalizeLoop table foldFn fold_case l k).1.length := by
  induction l, k using NormalizeLoop.induct table foldFn fold_case with
  | case1 k => simp [NormalizeLoop]
  | case2 b rest k len hle ih =>
    rw [NormalizeLoop]
    split
    · simp [ih]
    · exact absurd hle ‹¬Utf8CharLength b ≤ (b :: rest).length›
  | case3 b rest k len hle =>
    rw [NormalizeLoop]
    split
    · exact absurd (by simpa using ‹Utf8CharLength b ≤ rest.length + 1›) hle
    · simp

/-- Every declared character length is positive (Utf8CharLength "always
returns a positive value", normalizer.cc:34). -/
lemma Utf8CharLength_pos (b : Nat) : 1 ≤ Utf8CharLength b := by
  unfold Utf8CharLength GetNumBytesForUTF8Char
  repeat' split
  all_goals omega

/-- Normal outputs are closed under concatenation. -/
lemma NormalOutput_append {table : List Nat → Option (List Nat)}
    {foldFn : List Nat → List Nat} {a b : List Nat}
    (ha : NormalOutput table foldFn a) (hb : NormalOutput table foldFn b) :
    NormalOutput table foldFn (a ++ b) := by
  induction ha with
  | nil => simpa using hb
  | cons u rest hu ht hf _ ih =>
    rw [List.append_assoc]
    exact NormalOutput.cons u (rest ++ b) hu ht hf ih

/-- Helper for C6: a normal byte string passes through the case-folding
normalization loop unchanged. -/
lemma NormalizeLoop_fixed {table : List Nat → Option (List Nat)}
    {foldFn : List Nat → List Nat} {s : List Nat}
    (hs : NormalOutput table foldFn s) (k : Nat) :
    (NormalizeLoop table foldFn true s k).1 = s := by
  induction hs generalizing k with
  | nil => rw [NormalizeLoop]
  | cons u rest hu ht hf _ ih =>
    obtain ⟨hne, hlen⟩ := hu
    rcases u with _ | ⟨b, us⟩
    · exact absurd rfl hne
    · have hlen2 : Utf8CharLength b = us.length + 1 := by simpa using hlen
      rw [List.cons_append, NormalizeLoop,
        if_pos (by simp [hlen2, Nat.le_add_right])]
      have htake : List.take (Utf8CharLength b) (b :: (us ++ rest))
          = b :: us := by
        rw [hlen2, List.take_succ_cons, List.take_left]
      have hdrop : List.drop (Utf8CharLength b) (b :: (us ++ rest))
          = rest := by
        rw [hlen2, List.drop_succ_cons, List.drop_left]
      simp only [htake, hdrop, ht, Option.getD_none, if_pos rfl, hf, ih]
      simp

/-- Helper for C6: under the closure hypothesis, every output of the
case-folding normalization loop is normal. -/
lemma NormalizeLoop_output_normal {table : List Nat → Option (List Nat)}
    {foldFn : List Nat → List Nat}
    (H : ∀ u, IsCharUnit u →
      NormalOutput table foldFn (foldFn ((table u).getD u)))
    (l : List Nat) (k : Nat) :
    NormalOutput table foldFn (NormalizeLoop table foldFn true l k).1 := by
  induction l, k using NormalizeLoop.induct table foldFn true with
  | case1 k =>
    rw [NormalizeLoop]
    exact NormalOutput.nil
  | case2 b rest k len hle ih =>
    rw [NormalizeLoop, if_pos hle]
    refine NormalOutput_append ?_ ih
    have hu : IsCharUnit ((b :: rest).take (Utf8CharLength b)) := by
      constructor
      · have h1 := Utf8CharLength_pos b
        obtain ⟨n, hn⟩ : ∃ n, Utf8CharLength b = n + 1 :=
          ⟨Utf8CharLength b - 1, by omega⟩
        rw [hn, List.take_succ_cons]
        simp
      · have h1 := Utf8CharLength_pos b
        obtain ⟨n, hn⟩ : ∃ n, Utf8CharLength b = n + 1 :=
          ⟨Utf8CharLength b - 1, by omega⟩
        rw [List.length_take, hn, List.take_succ_cons]
        simp only [List.headD_cons]
        omega
    simpa using H _ hu
  | case3 b rest k len hle =>
    rw [NormalizeLoop, if_neg hle]
    exact NormalOutput.nil

/-- C6: case-folded normalization is idempotent on every input, under the
closure hypothesis that each character the normalizer can emit (the case
folding of the table substitution of any character unit) is a concatenation
of character units that are untouched by the table and fixed by case folding.
The table data (1468 generated entries, declared in
annotator/lookup/normalization-table.h but not under src/) and the Unicode
lowercasing are external, so they enter through this hypothesis, which the
spec's idempotence property presupposes of them. -/
theorem Normalize_case_folded_idempotent (table : List Nat → Option (List Nat))
    (foldFn : List Nat → List Nat)
    (H : ∀ u, IsCharUnit u →
      NormalOutput table foldFn (foldFn ((table u).getD u)))
    (input : List Nat) :
    (Normalize table foldFn true (Normalize table foldFn true input).1).1
      = (Normalize table foldFn true input).1 :=
  NormalizeLoop_fixed (NormalizeLoop_output_normal H input 0) 0

/-- C6 witness: an empty table with identity folding satisfies the closure
hypothesis, and normalization of the bytes of `"éa"` is idempotent. -/
theorem Normalize_case_folded_idempotent_witness :
    (Normalize (fun _ => none) (fun l => l) true
        (Normalize (fun _ => none) (fun l => l) true [195, 169, 97]).1).1
      = (Normalize (fun _ => none) (fun l => l) true [195, 169, 97]).1 :=
  Normalize_case_folded_idempotent (fun _ => none) (fun l => l)
    (fun u hu => by
      simpa using NormalOutput.cons u [] hu rfl rfl NormalOutput.nil)
    [195, 169, 97]

/-- C9 counterexample: a stray trail byte (0x80 = 128) is invalid UTF-8 in
leading position, but `Normalize` does not truncate the output there: the
fallback length 1 of `Utf8CharLength` (normalizer.cc:36-39) makes the byte
pass through to the output rather than being dropped. -/
theorem Normalize_stray_trail_byte_not_dropped :
    (Normalize (fun _ => none) (fun l => l) false [128]).1 = [128] ∧
      ([128] : List Nat) ≠ [] := by
  constructor
  · rw [Normalize, NormalizeLoop]
    norm_num [Utf8CharLength, IsTrailByte, NormalizeLoop]
  · simp

/-- C9 amended: the output is truncated exactly when the byte length declared
by the leading byte exceeds the remaining buffer (normalizer.cc:60-63); an
invalid stray trail byte instead gets the fallback length 1 and is processed
as a one-byte character that passes through to the output (for a character
absent from the normalization table, without case folding), rather than
being dropped. -/
theorem Normalize_truncates_only_on_overrun
    (table : List Nat → Option (List Nat)) (foldFn : List Nat → List Nat)
    (fold_case : Bool) (b : Nat) (rest : List Nat) (k : Nat) :
    (Utf8CharLength b > (b :: rest).length →
        NormalizeLoop table foldFn fold_case (b :: rest) k = ([], [])) ∧
      (IsTrailByte b = true → table [b] = none →
        NormalizeLoop table foldFn false (b :: rest) k
          = (b :: (NormalizeLoop table foldFn false rest (k + 1)).1,
             k :: (NormalizeLoop table foldFn false rest (k + 1)).2)) := by
  constructor
  · intro hgt
    rw [NormalizeLoop, if_neg (by omega)]
  · intro htrail htab
    have hlen : Utf8CharLength b = 1 := by
      unfold Utf8CharLength
      rw [if_pos htrail]
    rw [NormalizeLoop, if_pos (by rw [hlen]; simp)]
    simp [hlen, htab]

/-- C9 amended, witness: the byte 0xF0 (= 240) declares a 4-byte character,
so alone in the buffer it truncates the output; the stray trail byte 0x80
(= 128) passes through. -/
theorem Normalize_truncates_only_on_overrun_witness :
    NormalizeLoop (fun _ => none) (fun l => l) false [240] 0 = ([], []) ∧
      NormalizeLoop (fun _ => none) (fun l => l) false [128] 0
        = (128 :: (NormalizeLoop (fun _ => none) (fun l => l) false [] 1).1,
           0 :: (NormalizeLoop (fun _ => none) (fun l => l) false [] 1).2) :=
  ⟨(Normalize_truncates_only_on_overrun (fun _ => none) (fun l => l) false
      240 [] 0).1 (by decide),
   (Normalize_truncates_only_on_overrun (fun _ => none) (fun l => l) false
      128 [] 0).2 (by decide) rfl⟩

/-- C5: for every input (and any normalization table, case folding and
fold-case flag), the index map returned by `Normalize` has length equal to the
output's byte length plus one, and its final entry is the input's total byte
length. -/
theorem Normalize_index_map_invariant (table : List Nat → Option (List Nat))
    (foldFn : List Nat → List Nat) (fold_case : Bool) (input : List Nat) :
    (Normalize table foldFn fold_case input).2.length
        = (Normalize table foldFn fold_case input).1.length + 1 ∧
      (Normalize table foldFn fold_case input).2.getLast?
        = some input.length := by
  constructor
  · simp [Normalize, NormalizeLoop_length]
  · simp [Normalize, List.getLast?_concat]

end Normalizer

namespace LookupEngine

/-- C10 counterexample: `AddEntry` with the n-gram list `[""]` is not a no-op
on the engine's state: the entry store grows, because the entry is pushed
before the n-gram loop runs (lookup-engine.cc:28-29).  Here the entry store
was empty and is non-empty after the call. -/
theorem AddEntry_empty_ngram_grows_entry_store :
    (AddEntry id (fun _ => true) ⟨[], fun _ => []⟩ [""]
        ⟨"collection", 1, 2, 3, 4⟩).entries_ ≠ [] := by
  simp [AddEntry]

/-- C10 amended: `AddEntry` with the n-gram list `[""]` leaves every posting
list unchanged (the empty n-gram is skipped), but still appends the entry to
the entry store. -/
theorem AddEntry_empty_ngram_posting_lists_unchanged
    (stripNorm : String → String) (is_valid : String → Bool)
    (st : LookupState) (entry : ClassificationResult) :
    AddEntry stripNorm is_valid st [""] entry
      = ⟨st.entries_ ++ [entry], st.ngram_to_entry_index_⟩ := by
  simp [AddEntry, processNgram]

end LookupEngine

namespace NumberAnnotator

/-- C3 counterexample: the token `"."` (codepoint 46) contains no digit at
all — so zero digits are consumed while parsing it — yet `ParseNumber` (with
empty configured codepoint sets) succeeds, classifying it as the number 0:
the C++ `number_digits` counter also counts the decimal separator consumed in
`PARSING_WHOLE_PART` (number.cc:172-176,194-198), so the zero-consumed test
at number.cc:201 does not fire. -/
theorem ParseNumber_dot_token_counterexample :
    (∀ c ∈ [46], ¬(48 ≤ c ∧ c ≤ 57)) ∧
      (ParseNumber ⟨[], [], [], []⟩ [46]).isSome = true := by
  constructor
  · decide
  · decide

/-- C3 amended: if zero codepoints are consumed by the parsing loop — the
remainder after sign consumption is empty or starts with a codepoint that is
neither an ASCII digit nor one of the decimal separators `'.'`/`','` — then
`ParseNumber` fails.  (ASCII digits and the decimal separators all advance
the C++ `number_digits` counter, so "zero digits" in the original claim must
be read as "zero consumed codepoints".) -/
theorem ParseNumber_zero_consumed_fails (opts : Options) (text : List Nat)
    (h : ∀ c ∈ (consumeSign (afterAllowedPre opts text) 1).1.take 1,
        ¬(48 ≤ c ∧ c ≤ 57) ∧ c ≠ 46 ∧ c ≠ 44) :
    ParseNumber opts text = none := by
  have hcons : ConsumeAndParseNumber (afterAllowedPre opts text) = none := by
    rcases hrem : (consumeSign (afterAllowedPre opts text) 1).1 with _ | ⟨c, rest⟩
    · simp [ConsumeAndParseNumber, hrem, parseLoop]
    · have hc := h c (by simp [hrem])
      simp only [ConsumeAndParseNumber, hrem, parseLoop]
      rw [if_neg hc.1, if_neg (by simp [hc.2.1, hc.2.2])]
      simp
  simp only [ParseNumber, hcons]

/-- C3 amended, witness: the token `"a"` (codepoint 97) has no consumable
codepoint, and `ParseNumber` fails on it. -/
theorem ParseNumber_zero_consumed_fails_witness :
    ParseNumber ⟨[], [], [], []⟩ [97] = none :=
  ParseNumber_zero_consumed_fails ⟨[], [], [], []⟩ [97] (by decide)

/-- Helper for C4: no leading codepoints of a repeated-codepoint token belong
to a set the codepoint is not in. -/
lemma countLeadingIn_replicate_not_mem {s : List Nat} {c : Nat} (h : c ∉ s)
    (n : Nat) : countLeadingIn s (List.replicate n c) = 0 := by
  cases n with
  | zero => rfl
  | succ n => simp [List.replicate_succ, countLeadingIn, h]

/-- C4: a token of 25 repeated `'9'` digits (codepoint 57), under any
configuration whose stripped and allowed sets do not contain `'9'`, fails to
parse: the guard of `ParseNextNumericCodepoint` aborts the accumulation
before the 19th digit.  Moreover the guard keeps every accumulated value in
the signed 64-bit range: whenever it lets a digit through on a non-negative
accumulator, the new value still satisfies `0 ≤ v2 ≤ INT64_MAX`, so the
value never wraps. -/
theorem ParseNumber_25_nines_overflow_safe (opts : Options)
    (h1 : 57 ∉ opts.allowed_prefix_codepoints_)
    (h2 : 57 ∉ opts.ignored_prefix_span_boundary_codepoints_)
    (h3 : 57 ∉ opts.ignored_suffix_span_boundary_codepoints_)
    (v v2 : Int) (d : Nat) (hd1 : 48 ≤ d) (hd2 : d ≤ 57) (hv : 0 ≤ v)
    (hacc : ParseNextNumericCodepoint d v = some v2) :
    ParseNumber opts (List.replicate 25 57) = none ∧
      0 ≤ v2 ∧ v2 ≤ INT64_MAX := by
  refine ⟨?_, ?_⟩
  · have hstrip : StripBoundaryCodepoints
        opts.ignored_prefix_span_boundary_codepoints_
        opts.ignored_suffix_span_boundary_codepoints_
        (List.replicate 25 57) = (0, 25) := by
      simp only [StripBoundaryCodepoints, countLeadingIn_replicate_not_mem h2,
        List.drop_zero, List.reverse_replicate,
        countLeadingIn_replicate_not_mem h3, List.length_replicate,
        Nat.sub_zero]
    have hw : strippedWorking opts (List.replicate 25 57)
        = List.replicate 25 57 := by
      simp only [strippedWorking, hstrip, Nat.sub_zero, List.drop_zero,
        List.take_replicate, Nat.min_self]
    have hap : afterAllowedPre opts (List.replicate 25 57)
        = List.replicate 25 57 := by
      simp only [afterAllowedPre, hw, countLeadingIn_replicate_not_mem h1,
        List.drop_zero]
    have hcap : ConsumeAndParseNumber (List.replicate 25 57) = none := by
      decide
    simp only [ParseNumber, hap, hcap]
  · have hdiv : INT64_MAX / 10 = 922337203685477580 := by decide
    unfold ParseNextNumericCodepoint at hacc
    split at hacc
    · exact absurd hacc (by simp)
    · rename_i hguard
      rw [hdiv] at hguard
      have hv2 : v2 = v * 10 + (d : Int) - 48 := by
        injection hacc with h4
        omega
      unfold INT64_MAX
      omega

/-- C4 witness: at the empty configuration the 25-nines token fails to parse,
and the guard lets the 18th nine through (accumulator value
`99999999999999999`, i.e. 17 nines) yielding a value within `INT64_MAX`. -/
theorem ParseNumber_25_nines_overflow_safe_witness :
    ParseNumber ⟨[], [], [], []⟩ (List.replicate 25 57) = none ∧
      0 ≤ (999999999999999999 : Int) ∧
      (999999999999999999 : Int) ≤ INT64_MAX :=
  ParseNumber_25_nines_overflow_safe ⟨[], [], [], []⟩ (by decide) (by decide)
    (by decide) 99999999999999999 999999999999999999 57 (by decide)
    (by decide) (by decide) (by decide)

end NumberAnnotator

namespace LookupEngine

/-- C7: within `AddEntry` (whose n-gram loop folds `processNgram` with the
fresh `entry_index` over the list), a non-empty, UTF-8-valid n-gram whose
stripped normalization is non-empty has the new entry's index appended to its
posting list if and only if that posting list is empty or its last element
differs from the index — adjacent-only deduplication, with no stronger
deduplication applied. -/
theorem AddEntry_adjacent_only_dedup (stripNorm : String → String)
    (is_valid : String → Bool) (st : LookupState) (ngrams : List String)
    (entry : ClassificationResult) (m : String → List Nat) (ngram : String)
    (entry_index : Nat) (h1 : ngram ≠ "") (h2 : is_valid ngram = true)
    (h3 : stripNorm ngram ≠ "") :
    (AddEntry stripNorm is_valid st ngrams entry).ngram_to_entry_index_
        = ngrams.foldl (processNgram stripNorm is_valid st.entries_.length)
            st.ngram_to_entry_index_ ∧
      (processNgram stripNorm is_valid entry_index m ngram (stripNorm ngram)
          = m (stripNorm ngram) ++ [entry_index]
        ↔ (m (stripNorm ngram) = []
            ∨ (m (stripNorm ngram)).getLast? ≠ some entry_index)) := by
  refine ⟨rfl, ?_⟩
  unfold processNgram
  rw [if_neg h1, if_neg (by simp [h2]), if_neg h3]
  by_cases hc : m (stripNorm ngram) = []
      ∨ (m (stripNorm ngram)).getLast? ≠ some entry_index
  · rw [if_pos hc]
    simp [updateIndex, hc]
  · rw [if_neg hc]
    constructor
    · intro habs
      exact absurd (congrArg List.length habs) (by simp)
    · intro h4
      exact absurd h4 hc

end LookupEngine

/-- C8: for every annotated span in the result list whose first
classification has the Number collection, the percentage pass leaves the
span unchanged unless the longest-prefix match of the percentage-suffix
dictionary starting exactly at the span's end codepoint has positive
(codepoint-converted) length, in which case the collection becomes
Percentage, the priority score is overridden with the percentage priority
constant, and the span's end is extended by that length. -/
theorem FindPercentages_number_span_spec (trie : List Nat → Int) (pct : ℚ)
    (context : List Nat) (rs : List AnnotatedSpan) (i : Nat)
    (hi : i < rs.length) (c : ClassificationResult)
    (cs : List ClassificationResult)
    (hcls : (rs.getD i default).classification = c :: cs)
    (hnum : c.collection = CollectionNumber) :
    (NumberAnnotator.FindPercentages trie pct context rs).getD i default
      = if NumberAnnotator.GetPercentSuffixLength trie context
            (rs.getD i default).span.second > 0 then
          { span := ⟨(rs.getD i default).span.first,
              (rs.getD i default).span.second
                + (NumberAnnotator.GetPercentSuffixLength trie context
                    (rs.getD i default).span.second).toNat⟩,
            classification :=
              { c with collection := CollectionPercentage,
                       priority_score := pct } :: cs }
        else rs.getD i default := by
  unfold NumberAnnotator.FindPercentages
  rw [List.getD_eq_getElem?_getD, List.getElem?_map,
    List.getElem?_eq_getElem hi]
  have hget : rs[i] = rs.getD i default := by
    rw [List.getD_eq_getElem?_getD, List.getElem?_eq_getElem hi]
    rfl
  simp only [Option.map_some', Option.getD_some, hget, hcls]
  rw [if_neg (by simp [hnum])]

/-- C8 witness: context `"99%"` (codepoints 57, 57, 37), a trie matching the
one-byte suffix `"%"`, and a Number span `[0, 2)`: the span is upgraded to a
Percentage span `[0, 3)` with the percentage priority score. -/
theorem FindPercentages_number_span_spec_witness :
    (NumberAnnotator.FindPercentages
        (fun bs => if bs.headD 0 = 37 then 1 else -1) 5 [57, 57, 37]
        [⟨⟨0, 2⟩, [⟨"Number", 0, 0, 99, 99⟩]⟩]).getD 0 default
      = ⟨⟨0, 3⟩, [⟨"Percentage", 0, 5, 99, 99⟩]⟩ := by
  have h := FindPercentages_number_span_spec
    (fun bs => if bs.headD 0 = 37 then 1 else -1) 5 [57, 57, 37]
    [⟨⟨0, 2⟩, [⟨"Number", 0, 0, 99, 99⟩]⟩] 0 (by decide)
    ⟨"Number", 0, 0, 99, 99⟩ [] (by decide) rfl
  rw [h]
  decide

namespace LookupEngine

/-- C7 witness: a fresh index is appended to an empty posting list. -/
theorem AddEntry_adjacent_only_dedup_witness :
    (AddEntry id (fun _ => true) ⟨[], fun _ => []⟩ []
          ⟨"c", 0, 0, 0, 0⟩).ngram_to_entry_index_
        = List.foldl (processNgram id (fun _ => true) 0) (fun _ => []) [] ∧
      (processNgram id (fun _ => true) 7 (fun _ => []) "a" (id "a")
          = (fun _ => ([] : List Nat)) "a" ++ [7]
        ↔ ((fun _ => ([] : List Nat)) "a" = []
            ∨ (((fun _ => ([] : List Nat)) "a").getLast? ≠ some 7))) :=
  AddEntry_adjacent_only_dedup id (fun _ => true) ⟨[], fun _ => []⟩ []
    ⟨"c", 0, 0, 0, 0⟩ (fun _ => []) "a" 7 (by decide) rfl (by decide)

/-- Helper for C1: where a candidate produced by the inner forward loop comes
from: its end token index is in the enumerated list, its codepoint end is at
least the initial value, and it equals either the initial value or the token
end of some enumerated window no longer than it. -/
lemma endCandidatesAux_mem {tokens : List Token} :
    ∀ {es : List Nat} {ec0 e ec : Nat},
      (e, ec) ∈ endCandidatesAux tokens ec0 es → es.Pairwise (· < ·) →
      e ∈ es ∧ ec0 ≤ ec ∧
        (ec = ec0 ∨ ∃ e2 ∈ es, e2 ≤ e
          ∧ ec = (tokens.getD (e2 - 1) default).end_) := by
  intro es
  induction es with
  | nil =>
    intro ec0 e ec h _
    simp [endCandidatesAux] at h
  | cons e1 rest ih =>
    intro ec0 e ec h hp
    simp only [endCandidatesAux, List.mem_cons] at h
    rcases h with h | h
    · obtain ⟨he, hec⟩ := Prod.mk.injEq .. ▸ h
      refine ⟨by simp [he], hec ▸ le_max_left _ _, ?_⟩
      rcases max_choice ec0 ((tokens.getD (e1 - 1) default).end_) with hm | hm
      · exact Or.inl (by rw [hec, hm])
      · exact Or.inr ⟨e1, by simp, le_of_eq he.symm, by rw [hec, hm]⟩
    · obtain ⟨hmem, hge, hcomp⟩ := ih h hp.of_cons
      have he1 : e1 < e := (List.pairwise_cons.mp hp).1 e hmem
      refine ⟨List.mem_cons_of_mem _ hmem, le_trans (le_max_left _ _) hge, ?_⟩
      rcases hcomp with hc | ⟨e2, hm2, hle2, hec2⟩
      · rcases max_choice ec0 ((tokens.getD (e1 - 1) default).end_) with
          hm | hm
        · exact Or.inl (by rw [hc, hm])
        · exact Or.inr ⟨e1, by simp, le_of_lt he1, by rw [hc, hm]⟩
      · exact Or.inr ⟨e2, List.mem_cons_of_mem _ hm2, hle2, hec2⟩

/-- Helper for C1: a successful backward scan returns a candidate of the list
together with the stripped span and matches `FindMatches` produced for it. -/
lemma findLongestAux_some
    {fm : CodepointSpan → CodepointSpan × List ClassificationResult}
    {scIdx : Nat} :
    ∀ {l : List (Nat × Nat)} {e : Nat} {sp : CodepointSpan}
      {cls : List ClassificationResult},
      findLongestAux fm scIdx l = some (e, sp, cls) →
      ∃ ec, (e, ec) ∈ l ∧ sp = (fm ⟨scIdx, ec⟩).1
        ∧ cls = (fm ⟨scIdx, ec⟩).2 := by
  intro l
  induction l with
  | nil =>
    intro e sp cls h
    simp [findLongestAux] at h
  | cons p rest ih =>
    intro e sp cls h
    obtain ⟨e1, ec1⟩ := p
    simp only [findLongestAux] at h
    by_cases hr : (fm ⟨scIdx, ec1⟩).2 ≠ []
    · rw [if_pos hr] at h
      obtain ⟨he, hsp, hcls⟩ : e1 = e ∧ (fm ⟨scIdx, ec1⟩).1 = sp
          ∧ (fm ⟨scIdx, ec1⟩).2 = cls := by
        simpa [Prod.ext_iff] using Option.some.inj h
      exact ⟨ec1, by simp [← he], hsp.symm, hcls.symm⟩
    · rw [if_neg hr] at h
      obtain ⟨ec, hm, h2⟩ := ih h
      exact ⟨ec, List.mem_cons_of_mem _ hm, h2⟩

/-- Helper for C1: the fold of `chunkStep` over increasing in-range start
token indices keeps the recorded spans chained, provided every recorded span
ends no later than the token start of every remaining unclaimed start index
and the running codepoint cursor never overshoots a remaining token start. -/
lemma chunkStep_foldl_no_overlap (tokens : List Token) (max_num_tokens : Nat)
    (fm : CodepointSpan → CodepointSpan × List ClassificationResult)
    (hwf : ∀ i, i < tokens.length →
      (tokens.getD i default).start ≤ (tokens.getD i default).end_)
    (hord : ∀ i j, i < j → j < tokens.length →
      (tokens.getD i default).end_ ≤ (tokens.getD j default).start)
    (hstrip : ∀ sp : CodepointSpan,
      sp.first ≤ (fm sp).1.first ∧ (fm sp).1.second ≤ sp.second) :
    ∀ (starts : List Nat) (st : ChunkState),
      starts.Pairwise (· < ·) →
      (∀ s ∈ starts, s < tokens.length) →
      List.Pairwise (fun a b => a.span.second ≤ b.span.first) st.result →
      (∀ a ∈ st.result, ∀ s ∈ starts, st.minimum_start ≤ s →
        a.span.second ≤ (tokens.getD s default).start) →
      (∀ s ∈ starts, st.start_codepoint_idx ≤ (tokens.getD s default).start) →
      List.Pairwise (fun a b => a.span.second ≤ b.span.first)
        (starts.foldl (chunkStep tokens max_num_tokens fm) st).result := by
  have hmono : ∀ i j, i ≤ j → j < tokens.length →
      (tokens.getD i default).start ≤ (tokens.getD j default).start := by
    intro i j hij hj
    rcases eq_or_lt_of_le hij with rfl | hlt
    · exact le_refl _
    · exact le_trans (hwf i (lt_trans hlt hj)) (hord i j hlt hj)
  intro starts
  induction starts with
  | nil =>
    intro st _ _ hres _ _
    exact hres
  | cons s rest ih =>
    intro st hp hbound hres hclaim hcursor
    rw [List.foldl_cons]
    have hsn : s < tokens.length := hbound s (by simp)
    have hrest_lt : ∀ s2 ∈ rest, s < s2 := (List.pairwise_cons.mp hp).1
    have hrest_n : ∀ s2 ∈ rest, s2 < tokens.length :=
      fun s2 h2 => hbound s2 (List.mem_cons_of_mem _ h2)
    by_cases hskip : s < st.minimum_start
    · rw [show chunkStep tokens max_num_tokens fm st s = st by
        unfold chunkStep; rw [if_pos hskip]]
      exact ih st hp.of_cons hrest_n hres
        (fun a ha s2 h2 hm => hclaim a ha s2 (List.mem_cons_of_mem _ h2) hm)
        (fun s2 h2 => hcursor s2 (List.mem_cons_of_mem _ h2))
    · have hmin : st.minimum_start ≤ s := not_lt.mp hskip
      have hsc : ∀ s2 ∈ rest,
          max st.start_codepoint_idx ((tokens.getD s default).start)
            ≤ (tokens.getD s2 default).start := by
        intro s2 h2
        exact max_le (hcursor s2 (List.mem_cons_of_mem _ h2))
          (hmono s s2 (le_of_lt (hrest_lt s2 h2)) (hrest_n s2 h2))
      simp only [chunkStep]
      rw [if_neg hskip]
      rcases hfl : findLongestAux fm
          (max st.start_codepoint_idx ((tokens.getD s default).start))
          (endCandidatesAux tokens
            (max st.start_codepoint_idx ((tokens.getD s default).start))
            (List.range' (s + 1)
              (min (s + max_num_tokens) tokens.length - s))).reverse with
        _ | r
      · exact ih _ hp.of_cons hrest_n hres
          (fun a ha s2 h2 hm =>
            hclaim a ha s2 (List.mem_cons_of_mem _ h2) hm)
          hsc
      · obtain ⟨e, sp, cls⟩ := r
        obtain ⟨ec, hmem, hsp, _⟩ := findLongestAux_some hfl
        rw [List.mem_reverse] at hmem
        obtain ⟨hein, hecge, heccomp⟩ := endCandidatesAux_mem hmem
          (List.pairwise_lt_range' _ _)
        rw [List.mem_range'_1] at hein
        have hecbound : ∀ s2 ∈ rest, e ≤ s2 →
            ec ≤ (tokens.getD s2 default).start := by
          intro s2 h2 hes
          rcases heccomp with hc | ⟨e2, he2, hle2, hec2⟩
          · rw [hc]
            exact hsc s2 h2
          · rw [List.mem_range'_1] at he2
            have hes2 : e2 - 1 < s2 := by omega
            rw [hec2]
            exact hord (e2 - 1) s2 hes2 (hrest_n s2 h2)
        have hfirst :
            max st.start_codepoint_idx ((tokens.getD s default).start)
              ≤ sp.first := by
          rw [hsp]
          exact (hstrip ⟨_, ec⟩).1
        have hsecond : sp.second ≤ ec := by
          rw [hsp]
          exact (hstrip ⟨_, ec⟩).2
        refine ih _ hp.of_cons hrest_n ?_ ?_ hsc
        · rw [List.pairwise_append]
          refine ⟨hres, by simp, ?_⟩
          intro a ha b hb
          rw [List.mem_singleton] at hb
          subst hb
          show a.span.second ≤ sp.first
          exact le_trans (hclaim a ha s (by simp) hmin)
            (le_trans (le_max_right _ _) hfirst)
        · intro a ha s2 h2 hm
          rw [List.mem_append] at ha
          rcases ha with ha | ha
          · exact hclaim a ha s2 (List.mem_cons_of_mem _ h2)
              (le_trans hmin (le_of_lt (hrest_lt s2 h2)))
          · rw [List.mem_singleton] at ha
            subst ha
            show sp.second ≤ (tokens.getD s2 default).start
            exact le_trans hsecond (hecbound s2 h2 hm)

/-- C1: for every ordered, non-overlapping token list, every window limit,
every match limit and every boundary-shrinking match function, the spans
recorded by `ChunkInternal` never overlap: a span recorded earlier ends no
later than every later span begins. -/
theorem ChunkInternal_no_overlap (tokens : List Token)
    (max_num_tokens max_num_matches : Nat)
    (fm : Nat → CodepointSpan → CodepointSpan × List ClassificationResult)
    (hwf : ∀ i, i < tokens.length →
      (tokens.getD i default).start ≤ (tokens.getD i default).end_)
    (hord : ∀ i j, i < j → j < tokens.length →
      (tokens.getD i default).end_ ≤ (tokens.getD j default).start)
    (hstrip : ∀ sp : CodepointSpan,
      sp.first ≤ (fm max_num_matches sp).1.first
        ∧ (fm max_num_matches sp).1.second ≤ sp.second) :
    List.Pairwise (fun a b => a.span.second ≤ b.span.first)
      (ChunkInternal tokens max_num_tokens max_num_matches fm) := by
  unfold ChunkInternal
  exact chunkStep_foldl_no_overlap tokens max_num_tokens (fm max_num_matches)
    hwf hord hstrip (List.range tokens.length) ⟨0, 0, []⟩
    (List.pairwise_lt_range _) (fun s hs => List.mem_range.mp hs)
    (by simp) (by simp) (fun s _ => Nat.zero_le _)

/-- C1 witness: three ordered tokens and a match function matching only the
full three-token window produce a pairwise non-overlapping span list. -/
theorem ChunkInternal_no_overlap_witness :
    List.Pairwise (fun a b => a.span.second ≤ b.span.first)
      (ChunkInternal [⟨0, 3⟩, ⟨4, 8⟩, ⟨9, 13⟩] 5 10
        (fun _ sp =>
          (sp, if sp.first = 0 ∧ sp.second = 13 then [default] else []))) :=
  ChunkInternal_no_overlap [⟨0, 3⟩, ⟨4, 8⟩, ⟨9, 13⟩] 5 10
    (fun _ sp =>
      (sp, if sp.first = 0 ∧ sp.second = 13 then [default] else []))
    (by
      intro i hi
      have h3 : i < 3 := by simpa using hi
      interval_cases i <;> decide)
    (by
      intro i j h1 h2
      have h3 : j < 3 := by simpa using h2
      interval_cases j <;> interval_cases i <;> decide)
    (fun sp => ⟨le_refl _, le_refl _⟩)

/-- Helper for C2: over ordered non-overlapping tokens, the running-max
codepoint indices computed by the inner forward loop coincide with the token
ends `tokens[e-1].end` the spec describes. -/
lemma endCandidatesAux_sorted (tokens : List Token)
    (hwf : ∀ i, i < tokens.length →
      (tokens.getD i default).start ≤ (tokens.getD i default).end_)
    (hord : ∀ i j, i < j → j < tokens.length →
      (tokens.getD i default).end_ ≤ (tokens.getD j default).start) :
    ∀ (m j ec0 : Nat), j + m ≤ tokens.length →
      (0 < m → j < tokens.length ∧ ec0 ≤ (tokens.getD j default).end_) →
      endCandidatesAux tokens ec0 (List.range' (j + 1) m)
        = (List.range' (j + 1) m).map
            (fun e => (e, (tokens.getD (e - 1) default).end_)) := by
  intro m
  induction m with
  | zero =>
    intro j ec0 _ _
    rfl
  | succ m ih =>
    intro j ec0 hle hj
    obtain ⟨hjn, hec⟩ := hj (Nat.succ_pos m)
    rw [List.range'_succ, List.map_cons]
    simp only [endCandidatesAux, Nat.add_sub_cancel]
    rw [max_eq_right hec]
    refine congrArg _ ?_
    rw [show j + 1 + 1 = (j + 1) + 1 from rfl]
    exact ih (j + 1) _ (by omega) (fun hm => ⟨by omega,
      le_trans (hord j (j + 1) (by omega) (by omega)) (hwf (j + 1) (by omega))⟩)

/-- Helper for C2: the backward scan over the candidates with their token-end
codepoints is exactly the spec's first-match search over the end token
indices, window spans taken directly from the tokens. -/
lemma findLongestAux_map_eq
    (fm : CodepointSpan → CodepointSpan × List ClassificationResult)
    (tokens : List Token) (s : Nat) :
    ∀ es : List Nat,
      findLongestAux fm ((tokens.getD s default).start)
          (es.map (fun e => (e, (tokens.getD (e - 1) default).end_)))
        = firstMatchDesc fm tokens s es := by
  intro es
  induction es with
  | nil => rfl
  | cons e rest ih =>
    simp only [List.map_cons, findLongestAux, firstMatchDesc, windowSpan]
    rw [ih]

/-- C2: for a start token index `s` not skipped by the cursor (and with the
codepoint cursor not past `tokens[s].start`, as the outer loop maintains),
one step of `ChunkInternal` is exactly the spec's search: the end windows are
tried from the longest, `min (s + max_num_tokens) tokens.length`, down to the
shortest, `s + 1`; if some window yields matches via `FindMatches`, exactly
one AnnotatedSpan with those matches is appended and `minimum_start` becomes
that window's end token index — so shorter matches at the same start are
never emitted — and otherwise the state is unchanged except for the codepoint
cursor. -/
theorem chunkStep_longest_window_wins (tokens : List Token)
    (max_num_tokens : Nat)
    (fm : CodepointSpan → CodepointSpan × List ClassificationResult)
    (st : ChunkState) (s : Nat)
    (hwf : ∀ i, i < tokens.length →
      (tokens.getD i default).start ≤ (tokens.getD i default).end_)
    (hord : ∀ i j, i < j → j < tokens.length →
      (tokens.getD i default).end_ ≤ (tokens.getD j default).start)
    (hn : s < tokens.length) (hcursor : st.minimum_start ≤ s)
    (hsc : st.start_codepoint_idx ≤ (tokens.getD s default).start) :
    chunkStep tokens max_num_tokens fm st s
      = match LongestMatch fm tokens max_num_tokens s with
        | some (e, sp, cls) =>
          { minimum_start := e,
            start_codepoint_idx := (tokens.getD s default).start,
            result := st.result ++ [⟨sp, cls⟩] }
        | none =>
          { st with start_codepoint_idx := (tokens.getD s default).start } := by
  simp only [chunkStep]
  rw [if_neg (not_lt.mpr hcursor), max_eq_right hsc,
    endCandidatesAux_sorted tokens hwf hord
      (min (s + max_num_tokens) tokens.length - s) s _
      (by omega) (fun _ => ⟨hn, hwf s hn⟩),
    ← List.map_reverse, findLongestAux_map_eq fm tokens s]
  rfl

/-- C2 witness: at start index 0 with three tokens and a match function that
matches only the full window `[0, 13)`, one chunk step records exactly that
longest window. -/
theorem chunkStep_longest_window_wins_witness :
    chunkStep [⟨0, 3⟩, ⟨4, 8⟩, ⟨9, 13⟩] 5
        (fun sp =>
          (sp, if sp.first = 0 ∧ sp.second = 13 then [default] else []))
        ⟨0, 0, []⟩ 0
      = match LongestMatch
            (fun sp =>
              (sp, if sp.first = 0 ∧ sp.second = 13 then [default] else []))
            [⟨0, 3⟩, ⟨4, 8⟩, ⟨9, 13⟩] 5 0 with
        | some (e, sp, cls) =>
          { minimum_start := e, start_codepoint_idx := 0,
            result := [] ++ [⟨sp, cls⟩] }
        | none =>
          { minimum_start := 0, start_codepoint_idx := 0, result := [] } :=
  chunkStep_longest_window_wins [⟨0, 3⟩, ⟨4, 8⟩, ⟨9, 13⟩] 5
    (fun sp => (sp, if sp.first = 0 ∧ sp.second = 13 then [default] else []))
    ⟨0, 0, []⟩ 0
    (by
      intro i hi
      have h3 : i < 3 := by simpa using hi
      interval_cases i <;> decide)
    (by
      intro i j h1 h2
      have h3 : j < 3 := by simpa using h2
      interval_cases j <;> interval_cases i <;> decide)
    (by decide) (by decide) (by decide)

end LookupEngine

end LibTextClassifier
